import Mathlib

/-!
Verification of the pattern-comparison / clinical-rule-matching engine of the
speech diagnostic tool (src/streamlit_app.py).

The engine consists of:
  * `compare_ipa_transcriptions`  : character-level alignment of two IPA strings
    via `difflib.SequenceMatcher(None, expected, produced)` (opcodes + ratio);
  * `identify_patterns`           : ordered predicate classifier over the
    non-equal edit ops, enriched from a rule table;
  * `calculate_confidence_level`  : threshold lookup mapping similarity to a
    confidence tier;
  * `load_sensitivity_config` / the fallback rule table of `load_speech_rules`.

Strings are embedded as `List Char`, the similarity ratio as `ℚ`.

The alignment part embeds CPython's `difflib.SequenceMatcher` with
`isjunk = None` (the only way the repository uses it).  Consequences that the
embedding reflects:
  * `bjunk` is empty, so the two junk-extension while loops of
    `find_longest_match` never execute and the `isbjunk` tests in the other two
    extension loops are vacuous; only the two plain extension loops remain.
  * the autojunk heuristic still applies: for `len(b) >= 200`, characters
    occurring more than `len(b) // 100 + 1` times are dropped from `b2j`
    (they are skipped by the inner DP loop but still extendable).
The `j2len` dictionary that the DP of `find_longest_match` carries from one
row to the next is expressed by its closed-form recurrence `runLen`:
`j2len[j]` at row `i` equals the length of the run of matching, window-clipped,
non-popular positions ending at `(i, j)`; the iteration order (rows ascending,
b2j entries ascending) and the strict `k > bestsize` update are kept verbatim.
The breadth-first queue of `get_matching_blocks` followed by `sort()` is
expressed as the equivalent in-order recursion (the regions left and right of
a chosen block occupy disjoint, ordered index ranges of `a`, so the sorted
queue output is exactly the in-order traversal).
-/

/-- Python `s.strip('/')`: remove all leading and trailing `/` characters. -/
def stripSlashes (s : List Char) : List Char :=
  ((s.dropWhile (· == '/')).reverse.dropWhile (· == '/')).reverse

/-- Ascending list of the positions of character `c` in `b`
(the `b2j` dictionary entries before autojunk removal). -/
def posList (b : List Char) (c : Char) : List Nat :=
  (List.range b.length).filter (fun j => b.getD j ' ' == c)

/-- The autojunk test of `SequenceMatcher.__chain_b`: with `autojunk=True`,
for `len(b) >= 200` a character is *popular* when it occurs more than
`len(b) // 100 + 1` times in `b`. -/
def popularB (b : List Char) (c : Char) : Bool :=
  decide (200 ≤ b.length) && decide (b.length / 100 + 1 < b.count c)

/-- `b2j` lookup after autojunk removal: popular characters have been deleted
from the dictionary, so their lookup yields the default `[]`. -/
def b2j (b : List Char) (c : Char) : List Nat :=
  if popularB b c then [] else posList b c

/-- Closed form of the `j2len` DP of `find_longest_match`:
`runLen a b alo blo i j` is the value `k = j2len[j]` computed at row `i`,
column `j` — one more than the previous row's entry at `j-1`, which exists iff
the previous position pair is inside the window, matches, and is not popular. -/
def runLen (a b : List Char) (alo blo : Nat) : Nat → Nat → Nat
  | 0, _ => 1
  | _ + 1, 0 => 1
  | i + 1, j + 1 =>
    if alo ≤ i ∧ blo ≤ j ∧ b.getD j ' ' = a.getD i ' ' ∧
        popularB b (b.getD j ' ') = false then
      runLen a b alo blo i j + 1
    else 1

/-- The `b2j` entries visited at one row of the DP: positions `j` of `a[i]`'s
character in `b`, restricted to the window (`continue` below `blo`, `break`
at `bhi`; the list is ascending, so the break is a filter). -/
def colsFor (b : List Char) (blo bhi : Nat) (c : Char) : List Nat :=
  (b2j b c).filter (fun j => decide (blo ≤ j) && decide (j < bhi))

/-- All `(i, j)` pairs visited by the DP of `find_longest_match`, in visit
order: rows `i = alo, …, ahi-1`, and within a row the window-filtered `b2j`
entries of `a[i]` in ascending order. -/
def dpRows (a b : List Char) (blo bhi : Nat) : List Nat → List (Nat × Nat)
  | [] => []
  | i :: rest =>
    (colsFor b blo bhi (a.getD i ' ')).map (fun j => (i, j)) ++
      dpRows a b blo bhi rest

def dpPairs (a b : List Char) (alo ahi blo bhi : Nat) : List (Nat × Nat) :=
  dpRows a b blo bhi (List.range' alo (ahi - alo))

/-- One DP update with `k = j2len[j] = runLen … p.1 p.2`:
`if k > bestsize: besti, bestj, bestsize = i-k+1, j-k+1, k`. -/
def dpStep (a b : List Char) (alo blo : Nat) (st : Nat × Nat × Nat)
    (p : Nat × Nat) : Nat × Nat × Nat :=
  if st.2.2 < runLen a b alo blo p.1 p.2 then
    (p.1 + 1 - runLen a b alo blo p.1 p.2,
      p.2 + 1 - runLen a b alo blo p.1 p.2, runLen a b alo blo p.1 p.2)
  else st

/-- The DP portion of `find_longest_match`: fold the updates over all visited
pairs starting from `besti, bestj, bestsize = alo, blo, 0`. -/
def dpBest (a b : List Char) (alo ahi blo bhi : Nat) : Nat × Nat × Nat :=
  (dpPairs a b alo ahi blo bhi).foldl (dpStep a b alo blo) (alo, blo, 0)

/-- First extension loop of `find_longest_match` (the `isbjunk` test is
vacuous since `bjunk` is empty): extend the best block backwards over equal
characters.  Fuel-structural; the initial `besti` is always enough fuel. -/
def extendBack (a b : List Char) (alo blo : Nat) :
    Nat → Nat × Nat × Nat → Nat × Nat × Nat
  | 0, st => st
  | fuel + 1, (bi, bj, bs) =>
    if alo < bi ∧ blo < bj ∧ a.getD (bi - 1) ' ' = b.getD (bj - 1) ' ' then
      extendBack a b alo blo fuel (bi - 1, bj - 1, bs + 1)
    else (bi, bj, bs)

/-- Second extension loop: extend the best block forwards over equal
characters.  Fuel-structural; `ahi` is always enough fuel. -/
def extendFwd (a b : List Char) (ahi bhi : Nat) :
    Nat → Nat × Nat × Nat → Nat × Nat × Nat
  | 0, st => st
  | fuel + 1, (bi, bj, bs) =>
    if bi + bs < ahi ∧ bj + bs < bhi ∧
        a.getD (bi + bs) ' ' = b.getD (bj + bs) ' ' then
      extendFwd a b ahi bhi fuel (bi, bj, bs + 1)
    else (bi, bj, bs)

/-- `SequenceMatcher.find_longest_match` on the window
`a[alo:ahi] × b[blo:bhi]`: DP sweep, then the two extension loops
(the junk-extension loops never run since `isjunk` is `None`). -/
def find_longest_match (a b : List Char) (alo ahi blo bhi : Nat) :
    Nat × Nat × Nat :=
  let d := dpBest a b alo ahi blo bhi
  let e := extendBack a b alo blo d.1 d
  extendFwd a b ahi bhi ahi e

/-- `SequenceMatcher.get_matching_blocks` before collapsing: the queue +
final `sort()` expressed as the equivalent in-order recursion.  A block is
pushed only when `k > 0`; sub-windows are explored only under the same guards
as the Python queue pushes.  Fuel-structural; `len(a)+len(b)+1` is enough. -/
def matchingBlocksAux (a b : List Char) :
    Nat → Nat → Nat → Nat → Nat → List (Nat × Nat × Nat)
  | 0, _, _, _, _ => []
  | fuel + 1, alo, ahi, blo, bhi =>
    let m := find_longest_match a b alo ahi blo bhi
    if m.2.2 = 0 then []
    else
      (if alo < m.1 ∧ blo < m.2.1 then
        matchingBlocksAux a b fuel alo m.1 blo m.2.1
      else []) ++
      [m] ++
      (if m.1 + m.2.2 < ahi ∧ m.2.1 + m.2.2 < bhi then
        matchingBlocksAux a b fuel (m.1 + m.2.2) ahi (m.2.1 + m.2.2) bhi
      else [])

/-- The adjacent-block collapsing loop at the end of
`get_matching_blocks`, with its running `(i1, j1, k1)` state. -/
def collapseAux : Nat × Nat × Nat → List (Nat × Nat × Nat) →
    List (Nat × Nat × Nat)
  | (i1, j1, k1), [] => if k1 ≠ 0 then [(i1, j1, k1)] else []
  | (i1, j1, k1), (i2, j2, k2) :: rest =>
    if i1 + k1 = i2 ∧ j1 + k1 = j2 then collapseAux (i1, j1, k1 + k2) rest
    else (if k1 ≠ 0 then [(i1, j1, k1)] else []) ++ collapseAux (i2, j2, k2) rest

/-- `SequenceMatcher.get_matching_blocks`: recursive block collection,
adjacent collapse, and the `(la, lb, 0)` terminator. -/
def get_matching_blocks (a b : List Char) : List (Nat × Nat × Nat) :=
  collapseAux (0, 0, 0)
    (matchingBlocksAux a b (a.length + b.length + 1) 0 a.length 0 b.length) ++
  [(a.length, b.length, 0)]

/-- The opcode tags of `SequenceMatcher.get_opcodes`. -/
inductive Tag where
  | equal
  | replace
  | delete
  | insert
deriving DecidableEq

/-- One `(tag, i1, i2, j1, j2)` opcode. -/
structure OpCode where
  tag : Tag
  i1 : Nat
  i2 : Nat
  j1 : Nat
  j2 : Nat
deriving DecidableEq

/-- The opcode-building loop of `SequenceMatcher.get_opcodes`, carrying the
running `(i, j)` cursor. -/
def opcodesAux : Nat → Nat → List (Nat × Nat × Nat) → List OpCode
  | _, _, [] => []
  | i, j, (ai, bj, size) :: rest =>
    (if i < ai ∧ j < bj then [⟨Tag.replace, i, ai, j, bj⟩]
     else if i < ai then [⟨Tag.delete, i, ai, j, bj⟩]
     else if j < bj then [⟨Tag.insert, i, ai, j, bj⟩]
     else []) ++
    (if size ≠ 0 then [⟨Tag.equal, ai, ai + size, bj, bj + size⟩] else []) ++
    opcodesAux (ai + size) (bj + size) rest

/-- `SequenceMatcher.get_opcodes`. -/
def get_opcodes (a b : List Char) : List OpCode :=
  opcodesAux 0 0 (get_matching_blocks a b)

/-- `matches = sum(triple[-1] for triple in self.get_matching_blocks())`. -/
def matchesTotal (a b : List Char) : Nat :=
  ((get_matching_blocks a b).map (fun t => t.2.2)).sum

/-- `SequenceMatcher.ratio`, i.e. `_calculate_ratio(matches, len(a)+len(b))`:
`2.0 * matches / length` when the total length is nonzero, else `1.0`. -/
def ratioQ (a b : List Char) : ℚ :=
  if a.length + b.length = 0 then 1
  else (2 * matchesTotal a b : ℚ) / ((a.length : ℚ) + (b.length : ℚ))

/-- Python slice `l[i1:i2]`. -/
def sliceList (l : List Char) (i1 i2 : Nat) : List Char :=
  (l.drop i1).take (i2 - i1)

/-- One entry of the `differences` list built by `compare_ipa_transcriptions`:
`{'type': tag, 'expected': expected[i1:i2], 'produced': produced[j1:j2],
'position': i1}`. -/
structure Diff where
  type : Tag
  expected : List Char
  produced : List Char
  position : Nat
deriving DecidableEq

/-- `compare_ipa_transcriptions(produced_ipa, expected_ipa)`: strip the `/`
delimiters, run `SequenceMatcher(None, expected, produced)`, keep the
non-equal opcodes as difference records, and return them with the ratio. -/
def compare_ipa_transcriptions (producedIpa expectedIpa : List Char) :
    List Diff × ℚ :=
  let produced := stripSlashes producedIpa
  let expected := stripSlashes expectedIpa
  let diffs := ((get_opcodes expected produced).filter
      (fun op => !(op.tag == Tag.equal))).map
    (fun op => ⟨op.tag, sliceList expected op.i1 op.i2,
      sliceList produced op.j1 op.j2, op.i1⟩)
  (diffs, ratioQ expected produced)

/-- One row of the speech-rules table (`speech_rule_mapping.csv` columns,
headers whitespace-trimmed). -/
structure RuleRow where
  condition : String
  typicalPatterns : String
  ruleMapping : String
  clinicalNotes : String
  ageOfConcern : String
  confidenceNotes : String
deriving DecidableEq

/-- `speech_rules[speech_rules['Condition'] == name]` followed by
`.empty` / `.iloc[0]`: the first row whose `Condition` equals `name`. -/
def lookupRule (rules : List RuleRow) (name : String) : Option RuleRow :=
  (rules.filter (fun r => r.condition == name)).head?

/-- The identified-pattern dictionary appended by `identify_patterns`. -/
structure IdentifiedPattern where
  condition : String
  pattern : List Char
  ruleExample : String
  clinicalNotes : String
  ageConcern : String
  severity : String
  confidence : String
deriving DecidableEq

def mkPattern (cond : String) (pat : List Char) (sev : String)
    (r : RuleRow) : IdentifiedPattern :=
  ⟨cond, pat, r.ruleMapping, r.clinicalNotes, r.ageOfConcern, sev,
    r.confidenceNotes⟩

/-- Gliding test: `expected in ['r', 'ɹ'] and produced == 'w' or
expected == 'l' and produced in ['w', 'j']`. -/
def glidingB (e p : List Char) : Bool :=
  (e == ['r'] || e == ['ɹ']) && p == ['w'] || e == ['l'] && (p == ['w'] || p == ['j'])

/-- Stopping test: fricative expected, stop produced. -/
def stoppingB (e p : List Char) : Bool :=
  (e == ['s'] || e == ['z'] || e == ['f'] || e == ['v'] || e == ['θ'] ||
      e == ['ð'] || e == ['ʃ'] || e == ['ʒ']) &&
    (p == ['t'] || p == ['d'] || p == ['p'] || p == ['b'])

/-- Velar fronting test. -/
def frontingB (e p : List Char) : Bool :=
  (e == ['k'] || e == ['g'] || e == ['ŋ']) && (p == ['t'] || p == ['d'] || p == ['n'])

/-- Backing test. -/
def backingB (e p : List Char) : Bool :=
  (e == ['t'] || e == ['d'] || e == ['s']) && (p == ['k'] || p == ['g'])

/-- Labialization test. -/
def labializationB (e p : List Char) : Bool :=
  (e == ['s'] || e == ['z'] || e == ['t'] || e == ['d']) &&
    (p == ['f'] || p == ['v'] || p == ['p'] || p == ['b'])

def voicelessB (x : List Char) : Bool :=
  x == ['p'] || x == ['t'] || x == ['k'] || x == ['f'] || x == ['s'] ||
    x == ['θ'] || x == ['ʃ']

def voicedB (x : List Char) : Bool :=
  x == ['b'] || x == ['d'] || x == ['g'] || x == ['v'] || x == ['z'] ||
    x == ['ð'] || x == ['ʒ']

/-- Voicing-error test: voiceless↔voiced in either direction. -/
def voicingB (e p : List Char) : Bool :=
  voicelessB e && voicedB p || voicedB e && voicelessB p

/-- The `rule = speech_rules[...]; if not rule.empty: identified_patterns.append(...)`
body shared by every branch of the chain: look up `lookupName`, and on a hit
append one pattern carrying `cond` as its condition field.  In every branch
of the source except the voicing one, `lookupName` and `cond` coincide. -/
def emitRule (rules : List RuleRow) (lookupName cond : String) (pat : List Char)
    (sev : String) : List IdentifiedPattern :=
  match lookupRule rules lookupName with
  | some r => [mkPattern cond pat sev r]
  | none => []

/-- The `if/elif` chain of `identify_patterns` run on one difference record:
at most one predicate fires, and it emits a pattern only when the rule
table has the corresponding condition row. -/
def replaceStep (rules : List RuleRow) (d : Diff) : List IdentifiedPattern :=
  if d.type == Tag.replace then
    if glidingB d.expected d.produced then
      emitRule rules "Gliding" "Gliding" (d.expected ++ ['→'] ++ d.produced)
        "Moderate"
    else if stoppingB d.expected d.produced then
      emitRule rules "Stopping" "Stopping"
        (d.expected ++ ['→'] ++ d.produced ++ " (fricative to stop)".toList)
        "Moderate"
    else if frontingB d.expected d.produced then
      emitRule rules "Fronting (Velar Fronting)" "Fronting (Velar Fronting)"
        (d.expected ++ ['→'] ++ d.produced) "Moderate"
    else if backingB d.expected d.produced then
      emitRule rules "Backing" "Backing" (d.expected ++ ['→'] ++ d.produced)
        "Concerning"
    else if labializationB d.expected d.produced then
      emitRule rules "Labialization" "Labialization"
        (d.expected ++ ['→'] ++ d.produced) "Mild-Moderate"
    else if voicingB d.expected d.produced then
      emitRule rules "Voicing (Devoicing/Voicing Errors)" "Voicing Error"
        (d.expected ++ ['→'] ++ d.produced) "Mild"
    else []
  else []

/-- First loop of `identify_patterns`: the replace branch applied to each
difference record in order. -/
def replaceScan (rules : List RuleRow) : List Diff → List IdentifiedPattern
  | [] => []
  | d :: rest => replaceStep rules d ++ replaceScan rules rest

/-- Second loop of `identify_patterns`: scan for a `delete` record with a
non-empty expected span; on the first rule-table hit append one
"Final Consonant Deletion" pattern and `break`. -/
def deletionScan (rules : List RuleRow) : List Diff → List IdentifiedPattern
  | [] => []
  | d :: rest =>
    if d.type == Tag.delete && !d.expected.isEmpty then
      match lookupRule rules "Final Consonant Deletion" with
      | some r => [mkPattern "Final Consonant Deletion"
          ("Omission of /".toList ++ d.expected ++ ['/']) "Moderate" r]
      | none => deletionScan rules rest
    else deletionScan rules rest

/-- `identify_patterns(differences, speech_rules)`: replace-derived patterns
in op order, then the at-most-one deletion pattern. -/
def identify_patterns (rules : List RuleRow) (diffs : List Diff) :
    List IdentifiedPattern :=
  replaceScan rules diffs ++ deletionScan rules diffs

/-- The ordered first-match summary of the classifier's predicate chain:
which condition name the chain reports for a single (expected, produced)
replace pair, table lookups aside. -/
def firstMatchCondition (e p : List Char) : Option String :=
  if glidingB e p then some "Gliding"
  else if stoppingB e p then some "Stopping"
  else if frontingB e p then some "Fronting (Velar Fronting)"
  else if backingB e p then some "Backing"
  else if labializationB e p then some "Labialization"
  else if voicingB e p then some "Voicing Error"
  else none

/-- The sensitivity-threshold configuration dictionary. -/
structure SensConfig where
  highConfidence : ℚ
  moderateConfidence : ℚ
  lowConfidence : ℚ
deriving DecidableEq

/-- `load_sensitivity_config()`: the embedded default thresholds (there is no
external configuration source; the loader always returns these). -/
def load_sensitivity_config : SensConfig :=
  ⟨85 / 100, 65 / 100, 45 / 100⟩

/-- `calculate_confidence_level(similarity_score, config)`. -/
def calculate_confidence_level (similarityScore : ℚ) (config : SensConfig) :
    String × String :=
  if config.highConfidence ≤ similarityScore then ("High Confidence", "success")
  else if config.moderateConfidence ≤ similarityScore then
    ("Moderate Confidence", "warning")
  else if config.lowConfidence ≤ similarityScore then ("Low Confidence", "error")
  else ("Very Low Confidence", "error")

/-- The embedded fallback rule table of `load_speech_rules` (used when
`speech_rule_mapping.csv` is absent). -/
def load_speech_rules_fallback : List RuleRow :=
  [⟨"Articulation Disorder", "Difficulty producing specific speech sounds",
      "r→w substitution", "Motor-based errors", "Any age", "High for detection"⟩,
   ⟨"Phonological Disorder", "Patterned simplifications of sounds",
      "cluster reduction", "Language-based phonological knowledge difference",
      "Typically noticed in childhood", "High when multiple processes observed"⟩]

/-! ### Basic classifier lemmas -/

lemma emitRule_length_le (rules : List RuleRow) (n c : String) (pat : List Char)
    (sev : String) : (emitRule rules n c pat sev).length ≤ 1 := by
  unfold emitRule
  cases lookupRule rules n <;> simp

lemma emitRule_condition (rules : List RuleRow) (n c : String) (pat : List Char)
    (sev : String) :
    ∀ q ∈ emitRule rules n c pat sev, q.condition = c := by
  unfold emitRule
  cases lookupRule rules n <;> simp [mkPattern]

lemma emitRule_of_none (rules : List RuleRow) (n c : String) (pat : List Char)
    (sev : String) (h : lookupRule rules n = none) :
    emitRule rules n c pat sev = [] := by
  unfold emitRule
  rw [h]

lemma emitRule_of_some (rules : List RuleRow) (n c : String) (pat : List Char)
    (sev : String) (r : RuleRow) (h : lookupRule rules n = some r) :
    emitRule rules n c pat sev = [mkPattern c pat sev r] := by
  unfold emitRule
  rw [h]

/-- C1: with the default thresholds 0.85/0.65/0.45, `calculate_confidence_level`
returns ("High Confidence", success) iff the similarity is at least 0.85, else
("Moderate Confidence", warning) iff at least 0.65, else ("Low Confidence",
error) iff at least 0.45, else ("Very Low Confidence", error); in particular
the boundary 0.85 maps to High Confidence and 0.849999 to Moderate Confidence
(lower bounds inclusive). -/
theorem confidence_level_tiers (s : ℚ) :
    (calculate_confidence_level s load_sensitivity_config =
        ("High Confidence", "success") ↔ 85 / 100 ≤ s) ∧
    (calculate_confidence_level s load_sensitivity_config =
        ("Moderate Confidence", "warning") ↔ 65 / 100 ≤ s ∧ s < 85 / 100) ∧
    (calculate_confidence_level s load_sensitivity_config =
        ("Low Confidence", "error") ↔ 45 / 100 ≤ s ∧ s < 65 / 100) ∧
    (calculate_confidence_level s load_sensitivity_config =
        ("Very Low Confidence", "error") ↔ s < 45 / 100) ∧
    calculate_confidence_level (85 / 100) load_sensitivity_config =
      ("High Confidence", "success") ∧
    calculate_confidence_level (849999 / 1000000) load_sensitivity_config =
      ("Moderate Confidence", "warning") := by
  simp only [calculate_confidence_level, load_sensitivity_config]
  norm_num
  split_ifs with h1 h2 h3 <;>
    refine ⟨?_, ?_, ?_, ?_⟩ <;> simp_all <;> try linarith

/-- C7: there is no external threshold-configuration source: the loader
unconditionally returns the documented defaults 0.85/0.65/0.45, and scoring
with that configuration is total — every similarity value yields one of the
four labelled outcomes rather than a failure. -/
theorem config_defaults_total :
    load_sensitivity_config = ⟨85 / 100, 65 / 100, 45 / 100⟩ ∧
    ∀ s : ℚ, calculate_confidence_level s load_sensitivity_config ∈
      ([("High Confidence", "success"), ("Moderate Confidence", "warning"),
        ("Low Confidence", "error"), ("Very Low Confidence", "error")] :
        List (String × String)) := by
  refine ⟨rfl, fun s => ?_⟩
  simp only [calculate_confidence_level]
  split_ifs <;> simp

lemma fallback_replaceStep (d : Diff) :
    replaceStep load_speech_rules_fallback d = [] := by
  have hG : lookupRule load_speech_rules_fallback "Gliding" = none := by decide
  have hS : lookupRule load_speech_rules_fallback "Stopping" = none := by decide
  have hF : lookupRule load_speech_rules_fallback "Fronting (Velar Fronting)" =
      none := by decide
  have hB : lookupRule load_speech_rules_fallback "Backing" = none := by decide
  have hL : lookupRule load_speech_rules_fallback "Labialization" = none := by
    decide
  have hV : lookupRule load_speech_rules_fallback
      "Voicing (Devoicing/Voicing Errors)" = none := by decide
  unfold replaceStep
  split_ifs <;> simp [emitRule, hG, hS, hF, hB, hL, hV]

lemma fallback_deletionScan (diffs : List Diff) :
    deletionScan load_speech_rules_fallback diffs = [] := by
  induction diffs with
  | nil => rfl
  | cons d rest ih =>
    unfold deletionScan
    have h : lookupRule load_speech_rules_fallback "Final Consonant Deletion" =
        none := by decide
    rw [h]
    split <;> exact ih

/-- C10: with the embedded fallback rule table (conditions "Articulation
Disorder" and "Phonological Disorder" only), `identify_patterns` returns the
empty pattern list for every list of edit ops: no classifier branch looks up
either of those condition names, and the degradation is silent (total
function), never a crash. -/
theorem fallback_rules_classify_empty (diffs : List Diff) :
    identify_patterns load_speech_rules_fallback diffs = [] := by
  unfold identify_patterns
  rw [fallback_deletionScan]
  simp only [List.append_nil]
  induction diffs with
  | nil => rfl
  | cons d rest ih =>
    unfold replaceScan
    rw [fallback_replaceStep, ih]
    rfl
/-- C2: each single replace op contributes at most one pattern: the six
predicates are tested in the fixed order (Gliding, Stopping, Fronting,
Backing, Labialization, Voicing Error) and only the first match can emit, so
any emitted pattern's condition is exactly the first matching predicate's
condition name; no op ever yields two patterns. -/
theorem replace_op_first_match_only (rules : List RuleRow) (d : Diff) :
    (replaceStep rules d).length ≤ 1 ∧
    ∀ q, q ∈ replaceStep rules d →
      firstMatchCondition d.expected d.produced = some q.condition := by
  constructor
  · unfold replaceStep
    split_ifs <;> first | apply emitRule_length_le | simp
  · intro q hq
    unfold replaceStep at hq
    unfold firstMatchCondition
    split_ifs at hq ⊢ <;>
      first
        | rw [emitRule_condition _ _ _ _ _ q hq]
        | simp at hq

lemma replaceStep_non_replace (rules : List RuleRow) (d : Diff)
    (h : (d.type == Tag.replace) = false) : replaceStep rules d = [] := by
  simp [replaceStep, h]

lemma replaceScan_cons (rules : List RuleRow) (d : Diff) (rest : List Diff) :
    replaceScan rules (d :: rest) =
      replaceStep rules d ++ replaceScan rules rest := rfl

lemma deletionScan_cons_skip (rules : List RuleRow) (d : Diff) (rest : List Diff)
    (hd : (d.type == Tag.delete && !d.expected.isEmpty) = false) :
    deletionScan rules (d :: rest) = deletionScan rules rest := by
  simp only [deletionScan]
  rw [hd]
  simp

lemma replaceScan_filter_kept (rules : List RuleRow) (diffs : List Diff) :
    replaceScan rules
        (diffs.filter fun x => x.type == Tag.replace || x.type == Tag.delete) =
      replaceScan rules diffs := by
  induction diffs with
  | nil => rfl
  | cons d rest ih =>
    simp only [List.filter_cons]
    by_cases h : (d.type == Tag.replace || d.type == Tag.delete) = true
    · rw [if_pos h, replaceScan_cons, replaceScan_cons, ih]
    · rw [if_neg h, replaceScan_cons]
      have hr : (d.type == Tag.replace) = false := by simp_all
      rw [replaceStep_non_replace rules d hr, List.nil_append, ih]

lemma deletionScan_filter_kept (rules : List RuleRow) (diffs : List Diff) :
    deletionScan rules
        (diffs.filter fun x => x.type == Tag.replace || x.type == Tag.delete) =
      deletionScan rules diffs := by
  induction diffs with
  | nil => rfl
  | cons d rest ih =>
    simp only [List.filter_cons]
    by_cases h : (d.type == Tag.replace || d.type == Tag.delete) = true
    · rw [if_pos h]
      simp only [deletionScan]
      split
      · split
        · rfl
        · exact ih
      · exact ih
    · rw [if_neg h]
      have hd : (d.type == Tag.delete) = false := by simp_all
      rw [deletionScan_cons_skip rules d rest (by rw [hd]; rfl), ih]

lemma glidingB_len {e p : List Char} (h : glidingB e p = true) :
    e.length = 1 ∧ p.length = 1 := by
  simp only [glidingB, Bool.or_eq_true, Bool.and_eq_true, beq_iff_eq] at h
  casesm* _ ∨ _, _ ∧ _ <;> simp_all

lemma stoppingB_len {e p : List Char} (h : stoppingB e p = true) :
    e.length = 1 ∧ p.length = 1 := by
  simp only [stoppingB, Bool.or_eq_true, Bool.and_eq_true, beq_iff_eq] at h
  casesm* _ ∨ _, _ ∧ _ <;> simp_all

lemma frontingB_len {e p : List Char} (h : frontingB e p = true) :
    e.length = 1 ∧ p.length = 1 := by
  simp only [frontingB, Bool.or_eq_true, Bool.and_eq_true, beq_iff_eq] at h
  casesm* _ ∨ _, _ ∧ _ <;> simp_all

lemma backingB_len {e p : List Char} (h : backingB e p = true) :
    e.length = 1 ∧ p.length = 1 := by
  simp only [backingB, Bool.or_eq_true, Bool.and_eq_true, beq_iff_eq] at h
  casesm* _ ∨ _, _ ∧ _ <;> simp_all

lemma labializationB_len {e p : List Char} (h : labializationB e p = true) :
    e.length = 1 ∧ p.length = 1 := by
  simp only [labializationB, Bool.or_eq_true, Bool.and_eq_true, beq_iff_eq] at h
  casesm* _ ∨ _, _ ∧ _ <;> simp_all

lemma voicingB_len {e p : List Char} (h : voicingB e p = true) :
    e.length = 1 ∧ p.length = 1 := by
  simp only [voicingB, voicelessB, voicedB, Bool.or_eq_true, Bool.and_eq_true,
    beq_iff_eq] at h
  casesm* _ ∨ _, _ ∧ _ <;> simp_all

/-- C4: classification only ever draws on replace and delete ops — insert and
equal ops never contribute a pattern (removing them leaves the output
unchanged) — and a replace op whose expected or produced span is longer than
one symbol matches no predicate and is silently skipped. -/
theorem classify_only_replace_delete (rules : List RuleRow) (diffs : List Diff)
    (d : Diff) :
    identify_patterns rules
        (diffs.filter fun x => x.type == Tag.replace || x.type == Tag.delete) =
      identify_patterns rules diffs ∧
    (d.type = Tag.replace → 2 ≤ d.expected.length ∨ 2 ≤ d.produced.length →
      replaceStep rules d = []) := by
  constructor
  · unfold identify_patterns
    rw [replaceScan_filter_kept, deletionScan_filter_kept]
  · intro ht hlen
    unfold replaceStep
    rw [if_pos (by rw [ht]; rfl)]
    split_ifs with hg hs hf hb hl hv
    · exact absurd hlen (by obtain ⟨h1, h2⟩ := glidingB_len hg; omega)
    · exact absurd hlen (by obtain ⟨h1, h2⟩ := stoppingB_len hs; omega)
    · exact absurd hlen (by obtain ⟨h1, h2⟩ := frontingB_len hf; omega)
    · exact absurd hlen (by obtain ⟨h1, h2⟩ := backingB_len hb; omega)
    · exact absurd hlen (by obtain ⟨h1, h2⟩ := labializationB_len hl; omega)
    · exact absurd hlen (by obtain ⟨h1, h2⟩ := voicingB_len hv; omega)
    · rfl

/-- C9: an op that reaches the voicing branch emits a pattern whose condition
field is the string "Voicing Error", while the rule-table lookup uses the
different key "Voicing (Devoicing/Voicing Errors)": a voicing pattern is
emitted iff the table has a row under that long key, and a row keyed
"Voicing Error" alone never produces one. -/
theorem voicing_key_mismatch (rules : List RuleRow) (d : Diff)
    (ht : d.type = Tag.replace)
    (hv : voicingB d.expected d.produced = true)
    (h1 : glidingB d.expected d.produced = false)
    (h2 : stoppingB d.expected d.produced = false)
    (h3 : frontingB d.expected d.produced = false)
    (h4 : backingB d.expected d.produced = false)
    (h5 : labializationB d.expected d.produced = false) :
    (∀ r, lookupRule rules "Voicing (Devoicing/Voicing Errors)" = some r →
      replaceStep rules d =
        [mkPattern "Voicing Error" (d.expected ++ ['→'] ++ d.produced) "Mild" r]) ∧
    (lookupRule rules "Voicing (Devoicing/Voicing Errors)" = none →
      replaceStep rules d = []) ∧
    ∀ q ∈ replaceStep rules d, q.condition = "Voicing Error" := by
  have hrs : replaceStep rules d =
      emitRule rules "Voicing (Devoicing/Voicing Errors)" "Voicing Error"
        (d.expected ++ ['→'] ++ d.produced) "Mild" := by
    unfold replaceStep
    rw [if_pos (by rw [ht]; rfl)]
    simp [h1, h2, h3, h4, h5, hv]
  rw [hrs]
  exact ⟨fun r h => emitRule_of_some _ _ _ _ _ r h,
    fun h => emitRule_of_none _ _ _ _ _ h,
    emitRule_condition _ _ _ _ _⟩

/-- Witness for C9 at concrete inputs: a table keyed only "Voicing Error"
yields nothing for the voicing op p→b, while a table keyed
"Voicing (Devoicing/Voicing Errors)" yields the one pattern whose condition
field reads "Voicing Error". -/
theorem voicing_key_mismatch_witness :
    replaceStep [⟨"Voicing Error", "t", "u", "v", "w", "x"⟩]
        ⟨Tag.replace, ['p'], ['b'], 0⟩ = [] ∧
    replaceStep [⟨"Voicing (Devoicing/Voicing Errors)", "t", "u", "v", "w", "x"⟩]
        ⟨Tag.replace, ['p'], ['b'], 0⟩ =
      [mkPattern "Voicing Error" ['p', '→', 'b'] "Mild"
        ⟨"Voicing (Devoicing/Voicing Errors)", "t", "u", "v", "w", "x"⟩] :=
  ⟨(voicing_key_mismatch [⟨"Voicing Error", "t", "u", "v", "w", "x"⟩]
      ⟨Tag.replace, ['p'], ['b'], 0⟩ rfl (by decide) (by decide) (by decide)
      (by decide) (by decide) (by decide)).2.1 (by decide),
   (voicing_key_mismatch
      [⟨"Voicing (Devoicing/Voicing Errors)", "t", "u", "v", "w", "x"⟩]
      ⟨Tag.replace, ['p'], ['b'], 0⟩ rfl (by decide) (by decide) (by decide)
      (by decide) (by decide) (by decide)).1
      ⟨"Voicing (Devoicing/Voicing Errors)", "t", "u", "v", "w", "x"⟩
      (by decide)⟩

/-- C3: at most one deletion-derived pattern per call: when the table has a
"Final Consonant Deletion" row, the single pattern comes from the first
delete op with a non-empty expected span (`List.find?`) and scanning stops
there; with no such row, no deletion pattern at all; and the output is the
replace-derived patterns in op order followed by that at-most-one deletion
pattern. -/
theorem deletion_pattern_once (rules : List RuleRow) (diffs : List Diff) :
    identify_patterns rules diffs =
      replaceScan rules diffs ++ deletionScan rules diffs ∧
    (deletionScan rules diffs).length ≤ 1 ∧
    (∀ r, lookupRule rules "Final Consonant Deletion" = some r →
      deletionScan rules diffs =
        ((diffs.find? fun x => x.type == Tag.delete && !x.expected.isEmpty).toList.map
          fun x => mkPattern "Final Consonant Deletion"
            ("Omission of /".toList ++ x.expected ++ ['/']) "Moderate" r)) ∧
    (lookupRule rules "Final Consonant Deletion" = none →
      deletionScan rules diffs = []) := by
  refine ⟨rfl, ?_, ?_, ?_⟩
  · induction diffs with
    | nil => simp [deletionScan]
    | cons d rest ih =>
      simp only [deletionScan]
      split
      · split
        · simp
        · exact ih
      · exact ih
  · intro r hr
    induction diffs with
    | nil => simp [deletionScan]
    | cons d rest ih =>
      by_cases hc : (d.type == Tag.delete && !d.expected.isEmpty) = true
      · have hc' : (fun x : Diff => x.type == Tag.delete && !x.expected.isEmpty) d
            = true := hc
        rw [@List.find?_cons_of_pos Diff
          (fun x => x.type == Tag.delete && !x.expected.isEmpty) d rest hc']
        simp only [deletionScan]
        rw [if_pos hc, hr]
        simp
      · have hc' : ¬ (fun x : Diff => x.type == Tag.delete && !x.expected.isEmpty) d
            = true := hc
        rw [@List.find?_cons_of_neg Diff
          (fun x => x.type == Tag.delete && !x.expected.isEmpty) d rest hc',
          deletionScan_cons_skip rules d rest (by simp_all)]
        exact ih
  · intro hn
    induction diffs with
    | nil => rfl
    | cons d rest ih =>
      simp only [deletionScan]
      rw [hn]
      split
      · exact ih
      · exact ih

/-- Witness for C3 at concrete inputs: with a table containing the
"Final Consonant Deletion" row, two delete ops yield exactly the one pattern
for the first of them. -/
theorem deletion_pattern_once_witness :
    identify_patterns [⟨"Final Consonant Deletion", "t", "u", "v", "w", "x"⟩]
        [⟨Tag.delete, ['t'], [], 2⟩, ⟨Tag.delete, ['s'], [], 5⟩] =
      replaceScan [⟨"Final Consonant Deletion", "t", "u", "v", "w", "x"⟩]
          [⟨Tag.delete, ['t'], [], 2⟩, ⟨Tag.delete, ['s'], [], 5⟩] ++
        deletionScan [⟨"Final Consonant Deletion", "t", "u", "v", "w", "x"⟩]
          [⟨Tag.delete, ['t'], [], 2⟩, ⟨Tag.delete, ['s'], [], 5⟩] ∧
    (deletionScan [⟨"Final Consonant Deletion", "t", "u", "v", "w", "x"⟩]
        [⟨Tag.delete, ['t'], [], 2⟩, ⟨Tag.delete, ['s'], [], 5⟩]).length ≤ 1 ∧
    deletionScan [⟨"Final Consonant Deletion", "t", "u", "v", "w", "x"⟩]
        [⟨Tag.delete, ['t'], [], 2⟩, ⟨Tag.delete, ['s'], [], 5⟩] =
      ((([⟨Tag.delete, ['t'], [], 2⟩, ⟨Tag.delete, ['s'], [], 5⟩] :
          List Diff).find?
            fun x => x.type == Tag.delete && !x.expected.isEmpty).toList.map
        fun x => mkPattern "Final Consonant Deletion"
          ("Omission of /".toList ++ x.expected ++ ['/']) "Moderate"
          ⟨"Final Consonant Deletion", "t", "u", "v", "w", "x"⟩) := by
  have h := deletion_pattern_once
    [⟨"Final Consonant Deletion", "t", "u", "v", "w", "x"⟩]
    [⟨Tag.delete, ['t'], [], 2⟩, ⟨Tag.delete, ['s'], [], 5⟩]
  exact ⟨h.1, h.2.1, h.2.2.1 ⟨"Final Consonant Deletion", "t", "u", "v", "w", "x"⟩
    (by decide)⟩

/-- Witness for C2 at concrete inputs: the replace op r→w yields at most one
pattern and its condition is the first matching predicate's, "Gliding". -/
theorem replace_op_first_match_only_witness :
    (replaceStep [⟨"Gliding", "t", "u", "v", "w", "x"⟩]
        ⟨Tag.replace, ['r'], ['w'], 0⟩).length ≤ 1 ∧
    firstMatchCondition ['r'] ['w'] =
      some (mkPattern "Gliding" ['r', '→', 'w'] "Moderate"
        ⟨"Gliding", "t", "u", "v", "w", "x"⟩).condition := by
  have h := replace_op_first_match_only [⟨"Gliding", "t", "u", "v", "w", "x"⟩]
    ⟨Tag.replace, ['r'], ['w'], 0⟩
  exact ⟨h.1, h.2 (mkPattern "Gliding" ['r', '→', 'w'] "Moderate"
    ⟨"Gliding", "t", "u", "v", "w", "x"⟩) (by decide)⟩

/-- Witness for C4 at concrete inputs: an insert/equal diff changes nothing,
and the multi-symbol replace op st→f is skipped. -/
theorem classify_only_replace_delete_witness :
    identify_patterns []
        (([⟨Tag.insert, [], ['k'], 0⟩, ⟨Tag.equal, ['a'], ['a'], 1⟩] :
          List Diff).filter
          fun x => x.type == Tag.replace || x.type == Tag.delete) =
      identify_patterns [] [⟨Tag.insert, [], ['k'], 0⟩, ⟨Tag.equal, ['a'], ['a'], 1⟩] ∧
    replaceStep [] ⟨Tag.replace, ['s', 't'], ['f'], 0⟩ = [] := by
  have h := classify_only_replace_delete []
    [⟨Tag.insert, [], ['k'], 0⟩, ⟨Tag.equal, ['a'], ['a'], 1⟩]
    ⟨Tag.replace, ['s', 't'], ['f'], 0⟩
  exact ⟨h.1, h.2 rfl (by decide)⟩

/-- C8: for expected /kæt/ and produced /tæt/, alignment yields exactly one
replace op at position 0 with expected span "k" and produced span "t", and —
given any rule table with a "Fronting (Velar Fronting)" row — classification
yields exactly the one Fronting pattern "k→t" with severity Moderate. -/
theorem kaet_taet_fronting (rules : List RuleRow) (r : RuleRow)
    (h : lookupRule rules "Fronting (Velar Fronting)" = some r) :
    (compare_ipa_transcriptions ("/tæt/".toList) ("/kæt/".toList)).1 =
      [⟨Tag.replace, ['k'], ['t'], 0⟩] ∧
    identify_patterns rules
        (compare_ipa_transcriptions ("/tæt/".toList) ("/kæt/".toList)).1 =
      [mkPattern "Fronting (Velar Fronting)" ['k', '→', 't'] "Moderate" r] := by
  have hd : (compare_ipa_transcriptions ("/tæt/".toList) ("/kæt/".toList)).1 =
      [⟨Tag.replace, ['k'], ['t'], 0⟩] := by decide
  refine ⟨hd, ?_⟩
  rw [hd]
  have hdel : deletionScan rules [⟨Tag.replace, ['k'], ['t'], 0⟩] = [] := by
    rw [deletionScan_cons_skip rules _ _ (by decide)]
    rfl
  have hstep : replaceStep rules ⟨Tag.replace, ['k'], ['t'], 0⟩ =
      emitRule rules "Fronting (Velar Fronting)" "Fronting (Velar Fronting)"
        (['k'] ++ ['→'] ++ ['t']) "Moderate" := by
    unfold replaceStep
    rw [if_pos (by decide), if_neg (by decide), if_neg (by decide),
      if_pos (by decide)]
  unfold identify_patterns
  rw [replaceScan_cons, hstep, emitRule_of_some _ _ _ _ _ r h, hdel]
  simp [replaceScan]

/-- C6 counterexample: the similarity score is not symmetric in which string
is expected vs produced — for A = /abca/ and B = /ba/ the two orders give
different values (1/3 vs 2/3). -/
theorem similarity_swap_counterexample :
    ¬ ((compare_ipa_transcriptions ("/ba/".toList) ("/abca/".toList)).2 =
       (compare_ipa_transcriptions ("/abca/".toList) ("/ba/".toList)).2) := by
  have e1 : (compare_ipa_transcriptions ("/ba/".toList) ("/abca/".toList)).2 =
      1 / 3 := by
    show ratioQ (stripSlashes ("/abca/".toList)) (stripSlashes ("/ba/".toList)) =
      1 / 3
    unfold ratioQ
    rw [show matchesTotal (stripSlashes ("/abca/".toList))
        (stripSlashes ("/ba/".toList)) = 1 from by decide,
      show (stripSlashes ("/abca/".toList)).length = 4 from by decide,
      show (stripSlashes ("/ba/".toList)).length = 2 from by decide]
    norm_num
  have e2 : (compare_ipa_transcriptions ("/abca/".toList) ("/ba/".toList)).2 =
      2 / 3 := by
    show ratioQ (stripSlashes ("/ba/".toList)) (stripSlashes ("/abca/".toList)) =
      2 / 3
    unfold ratioQ
    rw [show matchesTotal (stripSlashes ("/ba/".toList))
        (stripSlashes ("/abca/".toList)) = 2 from by decide,
      show (stripSlashes ("/ba/".toList)).length = 2 from by decide,
      show (stripSlashes ("/abca/".toList)).length = 4 from by decide]
    norm_num
  rw [e1, e2]
  norm_num

/-! ### Structural facts about the `find_longest_match` DP -/

lemma runLen_pos (a b : List Char) (alo blo : Nat) :
    ∀ i j, 1 ≤ runLen a b alo blo i j := by
  intro i j
  rcases i with _ | i <;> rcases j with _ | j <;> simp only [runLen] <;>
    first
      | omega
      | (split <;> omega)

lemma runLen_le_left (a b : List Char) (alo blo : Nat) :
    ∀ i j, alo ≤ i → runLen a b alo blo i j ≤ i + 1 - alo := by
  intro i
  induction i with
  | zero =>
    intro j h
    rcases j with _ | j <;> simp only [runLen] <;> omega
  | succ i ih =>
    intro j h
    rcases j with _ | j
    · simp only [runLen]; omega
    · simp only [runLen]
      split
      · rename_i hc
        have := ih j hc.1
        omega
      · omega

lemma runLen_le_right (a b : List Char) (alo blo : Nat) :
    ∀ i j, blo ≤ j → runLen a b alo blo i j ≤ j + 1 - blo := by
  intro i
  induction i with
  | zero =>
    intro j h
    rcases j with _ | j <;> simp only [runLen] <;> omega
  | succ i ih =>
    intro j h
    rcases j with _ | j
    · simp only [runLen]; omega
    · simp only [runLen]
      split
      · rename_i hc
        have := ih j hc.2.1
        omega
      · omega

/-- On a diagonal window of `s` against itself, a run ending at `(i, j)` with
`j ≤ i` is no longer than the diagonal run ending at `(j, j)`. -/
lemma runLen_le_diag_left (s : List Char) (lo : Nat) :
    ∀ j i, j ≤ i → runLen s s lo lo i j ≤ runLen s s lo lo j j := by
  intro j
  induction j with
  | zero =>
    intro i _
    rcases i with _ | i <;> simp [runLen]
  | succ j ih =>
    intro i h
    obtain ⟨i, rfl⟩ : ∃ x, i = x + 1 := ⟨i - 1, by omega⟩
    by_cases hc : lo ≤ i ∧ lo ≤ j ∧ s.getD j ' ' = s.getD i ' ' ∧
        popularB s (s.getD j ' ') = false
    · simp only [runLen]
      rw [if_pos hc, if_pos ⟨hc.2.1, hc.2.1, trivial, hc.2.2.2⟩]
      have := ih i (by omega)
      omega
    · simp only [runLen]
      rw [if_neg hc]
      split <;> omega

/-- On a diagonal window of `s` against itself, a run ending at `(i, j)` with
`i ≤ j` is no longer than the diagonal run ending at `(i, i)`. -/
lemma runLen_le_diag_right (s : List Char) (lo : Nat) :
    ∀ i j, i ≤ j → runLen s s lo lo i j ≤ runLen s s lo lo i i := by
  intro i
  induction i with
  | zero =>
    intro j _
    rcases j with _ | j <;> simp [runLen]
  | succ i ih =>
    intro j h
    obtain ⟨j, rfl⟩ : ∃ x, j = x + 1 := ⟨j - 1, by omega⟩
    by_cases hc : lo ≤ i ∧ lo ≤ j ∧ s.getD j ' ' = s.getD i ' ' ∧
        popularB s (s.getD j ' ') = false
    · have hpi : popularB s (s.getD i ' ') = false := by
        rw [← hc.2.2.1]; exact hc.2.2.2
      simp only [runLen]
      rw [if_pos hc, if_pos ⟨hc.1, hc.1, trivial, hpi⟩]
      have := ih j (by omega)
      omega
    · simp only [runLen]
      rw [if_neg hc]
      split <;> omega

lemma mem_b2j_facts {b : List Char} {c : Char} {j : Nat} (h : j ∈ b2j b c) :
    b.getD j ' ' = c ∧ j < b.length ∧ popularB b c = false := by
  unfold b2j at h
  by_cases hp : popularB b c = true
  · rw [if_pos hp] at h
    simp at h
  · rw [if_neg hp] at h
    unfold posList at h
    simp only [List.mem_filter, List.mem_range, beq_iff_eq] at h
    exact ⟨h.2, h.1, by simpa using hp⟩

lemma mem_colsFor_facts {b : List Char} {lo hi : Nat} {c : Char} {j : Nat}
    (h : j ∈ colsFor b lo hi c) :
    j ∈ b2j b c ∧ lo ≤ j ∧ j < hi := by
  unfold colsFor at h
  simp only [List.mem_filter, Bool.and_eq_true, decide_eq_true_eq] at h
  exact ⟨h.1, h.2.1, h.2.2⟩

lemma self_mem_colsFor {s : List Char} {lo hi i : Nat}
    (h1 : lo ≤ i) (h2 : i < hi) (h3 : hi ≤ s.length)
    (h4 : popularB s (s.getD i ' ') = false) :
    i ∈ colsFor s lo hi (s.getD i ' ') := by
  unfold colsFor b2j
  rw [if_neg (by rw [h4]; exact Bool.false_ne_true)]
  unfold posList
  refine List.mem_filter.mpr
    ⟨List.mem_filter.mpr ⟨List.mem_range.mpr (by omega), ?_⟩, ?_⟩
  · exact beq_self_eq_true _
  · simp only [Bool.and_eq_true, decide_eq_true_eq]
    exact ⟨h1, h2⟩

lemma colsFor_pairwise (b : List Char) (lo hi : Nat) (c : Char) :
    (colsFor b lo hi c).Pairwise (· < ·) := by
  unfold colsFor b2j posList
  split
  · simp
  · exact ((List.pairwise_lt_range _).filter _).filter _

lemma colsFor_popular {b : List Char} {lo hi : Nat} {c : Char}
    (h : popularB b c = true) : colsFor b lo hi c = [] := by
  unfold colsFor b2j
  rw [if_pos h]
  rfl

/-- Invariant of the DP state on a diagonal window of `s` against itself,
after the rows below `i` have been processed: the best block is diagonal, it
lies inside the window, and its size dominates every diagonal run ending at a
processed non-popular row. -/
def DpGood (s : List Char) (lo hi i : Nat) (st : Nat × Nat × Nat) : Prop :=
  st.1 = st.2.1 ∧ lo ≤ st.1 ∧ st.1 + st.2.2 ≤ hi ∧
  ∀ r, lo ≤ r → r < i → popularB s (s.getD r ' ') = false →
    runLen s s lo lo r r ≤ st.2.2

lemma dpInnerAux (s : List Char) (lo hi : Nat) (i : Nat) (hih : i < hi) :
    ∀ (c : List Nat) (st : Nat × Nat × Nat),
      (∀ j ∈ c, j ∈ b2j s (s.getD i ' ') ∧ lo ≤ j ∧ j < hi) →
      c.Pairwise (· < ·) →
      DpGood s lo hi i st →
      (i ∈ c ∨ runLen s s lo lo i i ≤ st.2.2) →
      DpGood s lo hi (i + 1)
        ((c.map (fun j => (i, j))).foldl (dpStep s s lo lo) st) := by
  intro c
  induction c with
  | nil =>
    intro st _ _ hg hd
    simp only [List.map_nil, List.foldl_nil]
    obtain ⟨g1, g2, g3, g4⟩ := hg
    refine ⟨g1, g2, g3, fun r hr1 hr2 hr3 => ?_⟩
    by_cases hri : r < i
    · exact g4 r hr1 hri hr3
    · have : r = i := by omega
      subst this
      rcases hd with hmem | hle
      · simp at hmem
      · exact hle
  | cons j c ih =>
    intro st hj hp hg hd
    simp only [List.map_cons, List.foldl_cons]
    obtain ⟨hjb, hjlo, hjhi⟩ := hj j (List.mem_cons_self j c)
    obtain ⟨hcc, hjlen, hcpop⟩ := mem_b2j_facts hjb
    have hpopj : popularB s (s.getD j ' ') = false := by rw [hcc]; exact hcpop
    obtain ⟨g1, g2, g3, g4⟩ := hg
    have htail : ∀ x ∈ c, x ∈ b2j s (s.getD i ' ') ∧ lo ≤ x ∧ x < hi :=
      fun x hx => hj x (List.mem_cons_of_mem _ hx)
    have hptail : c.Pairwise (· < ·) := (List.pairwise_cons.mp hp).2
    rcases Nat.lt_trichotomy j i with hlt | heq | hgt
    · -- j < i: the old diagonal bound at row j already dominates this run
      have hb : runLen s s lo lo i j ≤ st.2.2 :=
        le_trans (runLen_le_diag_left s lo j i (le_of_lt hlt))
          (g4 j hjlo hlt hpopj)
      have hstep : dpStep s s lo lo st (i, j) = st := by
        unfold dpStep
        rw [if_neg (by simp only; omega)]
      rw [hstep]
      refine ih st htail hptail ⟨g1, g2, g3, g4⟩ ?_
      rcases hd with hmem | hle
      · rcases List.mem_cons.mp hmem with h | h
        · omega
        · exact Or.inl h
      · exact Or.inr hle
    · -- j = i: the diagonal entry of this row is processed here
      subst heq
      by_cases hk : st.2.2 < runLen s s lo lo j j
      · have hstep : dpStep s s lo lo st (j, j) =
            (j + 1 - runLen s s lo lo j j, j + 1 - runLen s s lo lo j j,
              runLen s s lo lo j j) := by
          unfold dpStep
          rw [if_pos (by simp only; omega)]
        rw [hstep]
        have hcap : runLen s s lo lo j j ≤ j + 1 - lo :=
          runLen_le_left s s lo lo j j hjlo
        refine ih _ htail hptail
          ⟨rfl, by simp only; omega, by simp only; omega,
            fun r hr1 hr2 hr3 => ?_⟩ (Or.inr (by exact le_rfl))
        have := g4 r hr1 hr2 hr3
        simp only
        omega
      · have hstep : dpStep s s lo lo st (j, j) = st := by
          unfold dpStep
          rw [if_neg (by simp only; omega)]
        rw [hstep]
        exact ih st htail hptail ⟨g1, g2, g3, g4⟩ (Or.inr (by omega))
    · -- j > i: the diagonal entry (i, i) was already processed in this row
      have hii : runLen s s lo lo i i ≤ st.2.2 := by
        rcases hd with hmem | hle
        · rcases List.mem_cons.mp hmem with h | h
          · omega
          · have := (List.pairwise_cons.mp hp).1 i h
            omega
        · exact hle
      have hb : runLen s s lo lo i j ≤ st.2.2 :=
        le_trans (runLen_le_diag_right s lo i j (le_of_lt hgt)) hii
      have hstep : dpStep s s lo lo st (i, j) = st := by
        unfold dpStep
        rw [if_neg (by simp only; omega)]
      rw [hstep]
      exact ih st htail hptail ⟨g1, g2, g3, g4⟩ (Or.inr hii)

lemma dpOuterAux (s : List Char) (lo hi : Nat) (hhs : hi ≤ s.length) :
    ∀ (cnt i : Nat) (st : Nat × Nat × Nat), lo ≤ i → i + cnt ≤ hi →
      DpGood s lo hi i st →
      DpGood s lo hi (i + cnt)
        ((dpRows s s lo hi (List.range' i cnt)).foldl (dpStep s s lo lo) st) := by
  intro cnt
  induction cnt with
  | zero =>
    intro i st _ _ hg
    simpa using hg
  | succ cnt ih =>
    intro i st hloi h hg
    have hrange : List.range' i (cnt + 1) = i :: List.range' (i + 1) cnt := rfl
    rw [hrange]
    have hdp : dpRows s s lo hi (i :: List.range' (i + 1) cnt) =
        (colsFor s lo hi (s.getD i ' ')).map (fun j => (i, j)) ++
          dpRows s s lo hi (List.range' (i + 1) cnt) := rfl
    rw [hdp, List.foldl_append]
    have hih : i < hi := by omega
    have harith : i + (cnt + 1) = i + 1 + cnt := by omega
    rw [harith]
    by_cases hpop : popularB s (s.getD i ' ') = true
    · rw [colsFor_popular hpop]
      simp only [List.map_nil, List.foldl_nil]
      refine ih (i + 1) st (by omega) (by omega) ?_
      obtain ⟨g1, g2, g3, g4⟩ := hg
      refine ⟨g1, g2, g3, fun r h1 h2 h3 => ?_⟩
      by_cases hri : r < i
      · exact g4 r h1 hri h3
      · have : r = i := by omega
        subst this
        rw [h3] at hpop
        simp at hpop
    · have hpop' : popularB s (s.getD i ' ') = false := by
        simpa using hpop
      have hinner := dpInnerAux s lo hi i hih (colsFor s lo hi (s.getD i ' '))
        st (fun j hj => mem_colsFor_facts hj)
        (colsFor_pairwise s lo hi (s.getD i ' ')) hg
        (Or.inl (self_mem_colsFor hloi hih hhs hpop'))
      exact ih (i + 1) _ (by omega) (by omega) hinner

/-- On any diagonal window of `s` against itself, the DP best block is
diagonal and lies inside the window. -/
lemma dpBest_diag (s : List Char) (lo hi : Nat) (h1 : lo ≤ hi)
    (h2 : hi ≤ s.length) :
    (dpBest s s lo hi lo hi).1 = (dpBest s s lo hi lo hi).2.1 ∧
    lo ≤ (dpBest s s lo hi lo hi).1 ∧
    (dpBest s s lo hi lo hi).1 + (dpBest s s lo hi lo hi).2.2 ≤ hi := by
  have h := dpOuterAux s lo hi h2 (hi - lo) lo (lo, lo, 0) le_rfl (by omega)
    ⟨rfl, le_rfl, by simpa using h1, fun r hr1 hr2 _ => by omega⟩
  unfold dpBest dpPairs
  exact ⟨h.1, h.2.1, h.2.2.1⟩

/-- On equal strings, the backward extension loop of `find_longest_match`
carries a diagonal block all the way back to the window start. -/
lemma extendBack_self (s : List Char) (lo : Nat) :
    ∀ (fuel bi bs : Nat), lo ≤ bi → bi ≤ fuel →
      extendBack s s lo lo fuel (bi, bi, bs) = (lo, lo, bs + (bi - lo)) := by
  intro fuel
  induction fuel with
  | zero =>
    intro bi bs h1 h2
    have hb : bi = 0 := by omega
    subst hb
    have hl : lo = 0 := by omega
    subst hl
    simp [extendBack]
  | succ fuel ih =>
    intro bi bs h1 h2
    by_cases hc : lo < bi
    · simp only [extendBack]
      rw [if_pos ⟨hc, hc, trivial⟩]
      rw [ih (bi - 1) (bs + 1) (by omega) (by omega)]
      have : bs + 1 + (bi - 1 - lo) = bs + (bi - lo) := by omega
      rw [this]
    · simp only [extendBack]
      rw [if_neg (by rintro ⟨h, -, -⟩; exact hc h)]
      have hb : bi = lo := by omega
      subst hb
      simp

/-- On equal strings, the forward extension loop of `find_longest_match`
carries a diagonal block all the way up to the window end. -/
lemma extendFwd_self (s : List Char) (hi : Nat) :
    ∀ (fuel lo bs : Nat), lo + bs ≤ hi → hi ≤ lo + bs + fuel →
      extendFwd s s hi hi fuel (lo, lo, bs) = (lo, lo, hi - lo) := by
  intro fuel
  induction fuel with
  | zero =>
    intro lo bs h1 h2
    have hb : bs = hi - lo := by omega
    subst hb
    simp [extendFwd]
  | succ fuel ih =>
    intro lo bs h1 h2
    by_cases hc : lo + bs < hi
    · simp only [extendFwd]
      rw [if_pos ⟨hc, hc, trivial⟩]
      exact ih lo (bs + 1) (by omega) (by omega)
    · simp only [extendFwd]
      rw [if_neg (by rintro ⟨h, -, -⟩; exact hc h)]
      have hb : bs = hi - lo := by omega
      subst hb
      rfl

/-- On any diagonal window of `s` against itself, `find_longest_match`
returns the whole window: the DP leaves a diagonal in-window best block and
the two extension loops (whose character tests are trivially true on equal
strings) stretch it to the full window. -/
lemma find_longest_match_self (s : List Char) (lo hi : Nat) (h1 : lo ≤ hi)
    (h2 : hi ≤ s.length) :
    find_longest_match s s lo hi lo hi = (lo, lo, hi - lo) := by
  obtain ⟨hd1, hd2, hd3⟩ := dpBest_diag s lo hi h1 h2
  unfold find_longest_match
  rcases hd : dpBest s s lo hi lo hi with ⟨bi, bj, bs⟩
  rw [hd] at hd1 hd2 hd3
  simp only at hd1 hd2 hd3
  subst hd1
  simp only
  rw [extendBack_self s lo bi bi bs hd2 le_rfl]
  exact extendFwd_self s hi hi lo (bs + (bi - lo)) (by omega) (by omega)

/-- On `s` against itself, the matching blocks are the single full-width
block (plus the terminator). -/
lemma get_matching_blocks_self (s : List Char) :
    get_matching_blocks s s =
      if s.length = 0 then [(0, 0, 0)]
      else [(0, 0, s.length), (s.length, s.length, 0)] := by
  unfold get_matching_blocks
  have hf := find_longest_match_self s 0 s.length (Nat.zero_le _) le_rfl
  rcases hn : s.length with _ | n
  · rw [hn] at hf
    simp only [matchingBlocksAux, hf]
    norm_num [collapseAux]
  · rw [hn] at hf
    simp only [matchingBlocksAux, hf]
    norm_num
    show collapseAux (0, 0, 0) [(0, 0, n + 1)] ++ [(n + 1, n + 1, 0)] = _
    simp [collapseAux]

/-- On `s` against itself, the opcodes are a single `equal` op (or nothing
for the empty string). -/
lemma get_opcodes_self (s : List Char) :
    get_opcodes s s =
      if s.length = 0 then []
      else [⟨Tag.equal, 0, s.length, 0, s.length⟩] := by
  unfold get_opcodes
  rw [get_matching_blocks_self]
  by_cases hn : s.length = 0
  · rw [if_pos hn, if_pos hn]
    simp [opcodesAux]
  · rw [if_neg hn, if_neg hn]
    simp only [opcodesAux]
    rw [if_neg (by omega), if_neg (by omega), if_neg (by omega),
      if_pos hn, if_neg (by omega), if_neg (by omega), if_neg (by omega)]
    simp

/-- On `s` against itself, the matched-character total is the whole length. -/
lemma matchesTotal_self (s : List Char) : matchesTotal s s = s.length := by
  unfold matchesTotal
  rw [get_matching_blocks_self]
  by_cases hn : s.length = 0
  · rw [if_pos hn]
    simp [hn]
  · rw [if_neg hn]
    simp

/-- On `s` against itself, the similarity ratio is exactly 1. -/
lemma ratioQ_self (s : List Char) : ratioQ s s = 1 := by
  unfold ratioQ
  rw [matchesTotal_self]
  by_cases hn : s.length = 0
  · rw [if_pos (by omega)]
  · rw [if_neg (by omega)]
    have h0 : (s.length : ℚ) ≠ 0 := by
      exact_mod_cast hn
    field_simp
    ring

/-- C5: aligning any phonetic string against itself (after delimiter
stripping) yields similarity exactly 1 and an empty list of non-equal edit
ops. -/
theorem compare_self_perfect (A : List Char) :
    compare_ipa_transcriptions A A = ([], 1) := by
  simp only [compare_ipa_transcriptions]
  rw [get_opcodes_self, ratioQ_self]
  by_cases hn : (stripSlashes A).length = 0
  · rw [if_pos hn]
    simp
  · rw [if_neg hn]
    simp

/-! ### Window bounds of `find_longest_match` and the matched total -/

/-- The best block lies inside the search window. -/
def WinBounds (alo ahi blo bhi : Nat) (st : Nat × Nat × Nat) : Prop :=
  alo ≤ st.1 ∧ st.1 + st.2.2 ≤ ahi ∧ blo ≤ st.2.1 ∧ st.2.1 + st.2.2 ≤ bhi

lemma dpRows_mem (a b : List Char) (blo bhi : Nat) :
    ∀ (rows : List Nat) (p : Nat × Nat), p ∈ dpRows a b blo bhi rows →
      p.1 ∈ rows ∧ blo ≤ p.2 ∧ p.2 < bhi := by
  intro rows
  induction rows with
  | nil => intro p hp; simp [dpRows] at hp
  | cons i rest ih =>
    intro p hp
    simp only [dpRows, List.mem_append, List.mem_map] at hp
    rcases hp with ⟨j, hj, rfl⟩ | hp
    · obtain ⟨-, h2, h3⟩ := mem_colsFor_facts hj
      exact ⟨List.mem_cons_self _ _, h2, h3⟩
    · obtain ⟨h1, h2⟩ := ih p hp
      exact ⟨List.mem_cons_of_mem _ h1, h2⟩

lemma dpBest_bounds (a b : List Char) (alo ahi blo bhi : Nat)
    (h1 : alo ≤ ahi) (h2 : blo ≤ bhi) :
    WinBounds alo ahi blo bhi (dpBest a b alo ahi blo bhi) := by
  unfold dpBest dpPairs
  have key : ∀ (l : List (Nat × Nat)) (st : Nat × Nat × Nat),
      (∀ p ∈ l, alo ≤ p.1 ∧ p.1 < ahi ∧ blo ≤ p.2 ∧ p.2 < bhi) →
      WinBounds alo ahi blo bhi st →
      WinBounds alo ahi blo bhi (l.foldl (dpStep a b alo blo) st) := by
    intro l
    induction l with
    | nil => intro st _ h; exact h
    | cons p rest ih =>
      intro st hmem hst
      simp only [List.foldl_cons]
      refine ih _ (fun q hq => hmem q (List.mem_cons_of_mem _ hq)) ?_
      obtain ⟨hp1, hp2, hp3, hp4⟩ := hmem p (List.mem_cons_self _ _)
      unfold dpStep
      split
      · have c1 := runLen_le_left a b alo blo p.1 p.2 hp1
        have c2 := runLen_le_right a b alo blo p.1 p.2 hp3
        have hpos := runLen_pos a b alo blo p.1 p.2
        show alo ≤ p.1 + 1 - runLen a b alo blo p.1 p.2 ∧
          p.1 + 1 - runLen a b alo blo p.1 p.2 + runLen a b alo blo p.1 p.2 ≤
            ahi ∧
          blo ≤ p.2 + 1 - runLen a b alo blo p.1 p.2 ∧
          p.2 + 1 - runLen a b alo blo p.1 p.2 + runLen a b alo blo p.1 p.2 ≤
            bhi
        refine ⟨by omega, by omega, by omega, by omega⟩
      · exact hst
  refine key _ _ (fun p hp => ?_) ?_
  · obtain ⟨h3, h4, h5⟩ := dpRows_mem a b blo bhi _ p hp
    rw [List.mem_range'] at h3
    obtain ⟨i, hi1, hi2⟩ := h3
    exact ⟨by omega, by omega, h4, h5⟩
  · show alo ≤ alo ∧ alo + 0 ≤ ahi ∧ blo ≤ blo ∧ blo + 0 ≤ bhi
    refine ⟨le_rfl, by omega, le_rfl, by omega⟩

lemma extendBack_bounds (a b : List Char) (alo ahi blo bhi : Nat) :
    ∀ (fuel : Nat) (st : Nat × Nat × Nat), WinBounds alo ahi blo bhi st →
      WinBounds alo ahi blo bhi (extendBack a b alo blo fuel st) := by
  intro fuel
  induction fuel with
  | zero => intro st h; exact h
  | succ fuel ih =>
    intro st h
    rcases st with ⟨bi, bj, bs⟩
    have h1 : alo ≤ bi := h.1
    have h2 : bi + bs ≤ ahi := h.2.1
    have h3 : blo ≤ bj := h.2.2.1
    have h4 : bj + bs ≤ bhi := h.2.2.2
    simp only [extendBack]
    split
    · rename_i hc
      refine ih _ ?_
      show alo ≤ bi - 1 ∧ bi - 1 + (bs + 1) ≤ ahi ∧ blo ≤ bj - 1 ∧
        bj - 1 + (bs + 1) ≤ bhi
      obtain ⟨hc1, hc2, -⟩ := hc
      refine ⟨by omega, by omega, by omega, by omega⟩
    · exact ⟨h1, h2, h3, h4⟩

lemma extendFwd_bounds (a b : List Char) (alo ahi blo bhi : Nat) :
    ∀ (fuel : Nat) (st : Nat × Nat × Nat), WinBounds alo ahi blo bhi st →
      WinBounds alo ahi blo bhi (extendFwd a b ahi bhi fuel st) := by
  intro fuel
  induction fuel with
  | zero => intro st h; exact h
  | succ fuel ih =>
    intro st h
    rcases st with ⟨bi, bj, bs⟩
    have h1 : alo ≤ bi := h.1
    have h2 : bi + bs ≤ ahi := h.2.1
    have h3 : blo ≤ bj := h.2.2.1
    have h4 : bj + bs ≤ bhi := h.2.2.2
    simp only [extendFwd]
    split
    · rename_i hc
      refine ih _ ?_
      show alo ≤ bi ∧ bi + (bs + 1) ≤ ahi ∧ blo ≤ bj ∧ bj + (bs + 1) ≤ bhi
      obtain ⟨hc1, hc2, -⟩ := hc
      refine ⟨by omega, by omega, by omega, by omega⟩
    · exact ⟨h1, h2, h3, h4⟩

lemma find_longest_match_bounds (a b : List Char) (alo ahi blo bhi : Nat)
    (h1 : alo ≤ ahi) (h2 : blo ≤ bhi) :
    WinBounds alo ahi blo bhi (find_longest_match a b alo ahi blo bhi) := by
  unfold find_longest_match
  exact extendFwd_bounds a b alo ahi blo bhi _ _
    (extendBack_bounds a b alo ahi blo bhi _ _
      (dpBest_bounds a b alo ahi blo bhi h1 h2))

/-- The blocks found on a window are pairwise disjoint in each string, so
their sizes sum to at most each window's width. -/
lemma blocksAux_sum (a b : List Char) :
    ∀ (fuel alo ahi blo bhi : Nat), alo ≤ ahi → blo ≤ bhi →
      ((matchingBlocksAux a b fuel alo ahi blo bhi).map (fun t => t.2.2)).sum
          ≤ ahi - alo ∧
      ((matchingBlocksAux a b fuel alo ahi blo bhi).map (fun t => t.2.2)).sum
          ≤ bhi - blo := by
  intro fuel
  induction fuel with
  | zero => intro alo ahi blo bhi h1 h2; simp [matchingBlocksAux]
  | succ fuel ih =>
    intro alo ahi blo bhi h1 h2
    obtain ⟨b1, b2, b3, b4⟩ := find_longest_match_bounds a b alo ahi blo bhi h1 h2
    simp only [matchingBlocksAux]
    split
    · simp
    · rw [List.map_append, List.map_append, List.sum_append, List.sum_append]
      by_cases hg1 : alo < (find_longest_match a b alo ahi blo bhi).1 ∧
          blo < (find_longest_match a b alo ahi blo bhi).2.1
      · rw [if_pos hg1]
        obtain ⟨l1, l2⟩ := ih alo (find_longest_match a b alo ahi blo bhi).1
          blo (find_longest_match a b alo ahi blo bhi).2.1
          (le_of_lt hg1.1) (le_of_lt hg1.2)
        by_cases hg2 : (find_longest_match a b alo ahi blo bhi).1 +
              (find_longest_match a b alo ahi blo bhi).2.2 < ahi ∧
            (find_longest_match a b alo ahi blo bhi).2.1 +
              (find_longest_match a b alo ahi blo bhi).2.2 < bhi
        · rw [if_pos hg2]
          obtain ⟨r1, r2⟩ := ih
            ((find_longest_match a b alo ahi blo bhi).1 +
              (find_longest_match a b alo ahi blo bhi).2.2) ahi
            ((find_longest_match a b alo ahi blo bhi).2.1 +
              (find_longest_match a b alo ahi blo bhi).2.2) bhi
            (le_of_lt hg2.1) (le_of_lt hg2.2)
          simp only [List.map_cons, List.map_nil, List.sum_cons, List.sum_nil]
          constructor <;> omega
        · rw [if_neg hg2]
          simp only [List.map_cons, List.map_nil, List.sum_cons, List.sum_nil]
          constructor <;> omega
      · rw [if_neg hg1]
        by_cases hg2 : (find_longest_match a b alo ahi blo bhi).1 +
              (find_longest_match a b alo ahi blo bhi).2.2 < ahi ∧
            (find_longest_match a b alo ahi blo bhi).2.1 +
              (find_longest_match a b alo ahi blo bhi).2.2 < bhi
        · rw [if_pos hg2]
          obtain ⟨r1, r2⟩ := ih
            ((find_longest_match a b alo ahi blo bhi).1 +
              (find_longest_match a b alo ahi blo bhi).2.2) ahi
            ((find_longest_match a b alo ahi blo bhi).2.1 +
              (find_longest_match a b alo ahi blo bhi).2.2) bhi
            (le_of_lt hg2.1) (le_of_lt hg2.2)
          simp only [List.map_cons, List.map_nil, List.sum_cons, List.sum_nil]
          constructor <;> omega
        · rw [if_neg hg2]
          simp only [List.map_cons, List.map_nil, List.sum_cons, List.sum_nil]
          constructor <;> omega

/-- The collapsing pass preserves the total of the block sizes. -/
lemma collapseAux_sum :
    ∀ (l : List (Nat × Nat × Nat)) (i1 j1 k1 : Nat),
      ((collapseAux (i1, j1, k1) l).map (fun t => t.2.2)).sum =
        k1 + (l.map (fun t => t.2.2)).sum := by
  intro l
  induction l with
  | nil =>
    intro i1 j1 k1
    simp only [collapseAux]
    split
    · simp
    · rename_i h
      simp only [ne_eq, not_not] at h
      subst h
      simp
  | cons p rest ih =>
    intro i1 j1 k1
    rcases p with ⟨i2, j2, k2⟩
    simp only [collapseAux]
    split
    · rw [ih]
      simp only [List.map_cons, List.sum_cons]
      omega
    · rw [List.map_append, List.sum_append, ih]
      simp only [List.map_cons, List.sum_cons]
      split
      · simp only [List.map_cons, List.map_nil, List.sum_cons, List.sum_nil]
        omega
      · rename_i hne h0
        simp only [ne_eq, not_not] at h0
        simp only [List.map_nil, List.sum_nil]
        omega

/-- The matched-character total never exceeds either string's length. -/
lemma matchesTotal_le (a b : List Char) :
    matchesTotal a b ≤ a.length ∧ matchesTotal a b ≤ b.length := by
  unfold matchesTotal get_matching_blocks
  rw [List.map_append, List.sum_append, collapseAux_sum]
  simp only [List.map_cons, List.map_nil, List.sum_cons, List.sum_nil]
  obtain ⟨s1, s2⟩ := blocksAux_sum a b (a.length + b.length + 1) 0 a.length 0
    b.length (Nat.zero_le _) (Nat.zero_le _)
  constructor <;> omega

/-- C6, amended: the similarity score need not be symmetric under swapping
which string is expected vs produced (see the counterexample); what does hold
for every pair, in either order, is that the score is `2·M/(|A|+|B|)` for a
matched total `M` bounded by both lengths, hence a value in `[0, 1]` over the
same total length, and the edit ops remain directional. -/
theorem similarity_in_unit_interval (A B : List Char) :
    0 ≤ (compare_ipa_transcriptions A B).2 ∧
      (compare_ipa_transcriptions A B).2 ≤ 1 := by
  simp only [compare_ipa_transcriptions]
  show 0 ≤ ratioQ (stripSlashes B) (stripSlashes A) ∧
    ratioQ (stripSlashes B) (stripSlashes A) ≤ 1
  unfold ratioQ
  split
  · norm_num
  · rename_i h0
    obtain ⟨m1, m2⟩ := matchesTotal_le (stripSlashes B) (stripSlashes A)
    have hlen : 0 < (stripSlashes B).length + (stripSlashes A).length :=
      Nat.pos_of_ne_zero h0
    have hpos : (0 : ℚ) <
        ((stripSlashes B).length : ℚ) + ((stripSlashes A).length : ℚ) := by
      exact_mod_cast hlen
    constructor
    · apply div_nonneg
      · positivity
      · exact le_of_lt hpos
    · rw [div_le_one hpos]
      have h2m : 2 * matchesTotal (stripSlashes B) (stripSlashes A) ≤
          (stripSlashes B).length + (stripSlashes A).length := by omega
      exact_mod_cast h2m

/-- Witness for C8 at a concrete rule table containing the
"Fronting (Velar Fronting)" row. -/
theorem kaet_taet_fronting_witness :
    (compare_ipa_transcriptions ("/tæt/".toList) ("/kæt/".toList)).1 =
      [⟨Tag.replace, ['k'], ['t'], 0⟩] ∧
    identify_patterns [⟨"Fronting (Velar Fronting)", "t", "u", "v", "w", "x"⟩]
        (compare_ipa_transcriptions ("/tæt/".toList) ("/kæt/".toList)).1 =
      [mkPattern "Fronting (Velar Fronting)" ['k', '→', 't'] "Moderate"
        ⟨"Fronting (Velar Fronting)", "t", "u", "v", "w", "x"⟩] :=
  kaet_taet_fronting [⟨"Fronting (Velar Fronting)", "t", "u", "v", "w", "x"⟩]
    ⟨"Fronting (Velar Fronting)", "t", "u", "v", "w", "x"⟩ (by decide)
